import Mathlib

set_option autoImplicit false
set_option linter.unnecessarySimpa false
set_option linter.unreachableTactic false
set_option linter.unusedTactic false
set_option linter.unnecessarySeqFocus false

namespace StarRocksPindex

/- ===================================================================
   Embedding of src/be/src/storage/publish_version_manager.cpp
   =================================================================== -/

/-- Thrift status code of a finish-task request; only the distinction
OK / not-OK matters to `_all_task_applied`. -/
inductive TStatusCode where
  | OK
  | ERROR
deriving DecidableEq

/-- Keys type of a tablet; only PRIMARY_KEYS is distinguished. -/
inductive KeysType where
  | PRIMARY_KEYS
  | DUP_KEYS
deriving DecidableEq

/-- Tablet state; only TABLET_RUNNING is distinguished. -/
inductive TabletState where
  | TABLET_RUNNING
  | TABLET_NOTREADY
deriving DecidableEq

/-- The fields of a tablet consulted by publish_version_manager.cpp. -/
structure Tablet where
  keys_type : KeysType
  tablet_state : TabletState
  max_readable_version : Int
deriving DecidableEq

/-- `StorageEngine::instance()->tablet_manager()->get_tablet` abstracted
as a lookup function from tablet id to an optional tablet. -/
abbrev TabletManager : Type := Int → Option Tablet

/-- One entry of `tablet_publish_versions`: a (tablet_id, version) pair. -/
structure TTabletVersionPair where
  tablet_id : Int
  version : Int
deriving DecidableEq

/-- The fields of TFinishTaskRequest consulted by the manager. -/
structure TFinishTaskRequest where
  signature : Int
  status_code : TStatusCode
  tablet_publish_versions : List TTabletVersionPair
deriving DecidableEq

/-- Association-list map with Int keys, standing for the std::unordered_map
members of PublishVersionManager. -/
abbrev IntMap (α : Type) : Type := List (Int × α)

def IntMap.find {α : Type} (m : IntMap α) (k : Int) : Option α :=
  (List.find? (fun p => p.1 == k) m).map Prod.snd

def IntMap.eraseKey {α : Type} (m : IntMap α) (k : Int) : IntMap α :=
  List.filter (fun p => !(p.1 == k)) m

/-- `m[k] = v` map assignment: any old binding is dropped, the new one appended. -/
def IntMap.set {α : Type} (m : IntMap α) (k : Int) (v : α) : IntMap α :=
  IntMap.eraseKey m k ++ [(k, v)]

/-- The loop of `PublishVersionManager::_all_task_applied` (lines 61-80).
`none` models the early `return true;` taken when a tablet exists but is not a
primary-keys tablet or not in TABLET_RUNNING state; `some (flag, unapplied)`
is normal loop exit with the local `all_task_applied` flag and the local
`unapplied_tablet` set. -/
def allTaskAppliedLoop (tm : TabletManager) :
    List TTabletVersionPair → List (Int × Int) → Bool → Option (Bool × List (Int × Int))
  | [], unapplied, flag => some (flag, unapplied)
  | tv :: rest, unapplied, flag =>
    match tm tv.tablet_id with
    | none => allTaskAppliedLoop tm rest unapplied flag
    | some t =>
      if t.keys_type ≠ KeysType.PRIMARY_KEYS ∨ t.tablet_state ≠ TabletState.TABLET_RUNNING then
        none
      else if t.max_readable_version < tv.version then
        allTaskAppliedLoop tm rest (unapplied ++ [(tv.tablet_id, tv.version)]) false
      else
        allTaskAppliedLoop tm rest unapplied flag

/-- `PublishVersionManager::_all_task_applied` (lines 54-86).  Returns the
bool result together with the updated `_unapplied_tablet_by_txn` member. -/
def all_task_applied (tm : TabletManager) (unappliedByTxn : IntMap (List (Int × Int)))
    (req : TFinishTaskRequest) : Bool × IntMap (List (Int × Int)) :=
  if req.status_code ≠ TStatusCode.OK then
    (true, unappliedByTxn)
  else
    match allTaskAppliedLoop tm req.tablet_publish_versions [] true with
    | none => (true, unappliedByTxn)
    | some (flag, unapplied) =>
      if flag then (true, unappliedByTxn)
      else (false, IntMap.set unappliedByTxn req.signature unapplied)

/-- The loop of `PublishVersionManager::_left_task_applied` (lines 96-112):
walks the recorded (tablet_id, request_version) pairs, counting and collecting
those whose tablet is still running with `max_readable_version` below the
requested version. -/
def leftTaskAppliedLoop (tm : TabletManager) :
    List (Int × Int) → Nat × List (Int × Int)
  | [] => (0, [])
  | (tid, ver) :: rest =>
    let r := leftTaskAppliedLoop tm rest
    match tm tid with
    | none => r
    | some t =>
      if t.tablet_state ≠ TabletState.TABLET_RUNNING then r
      else if t.max_readable_version < ver then (r.1 + 1, (tid, ver) :: r.2)
      else r

/-- `PublishVersionManager::_left_task_applied` (lines 88-119), returning the
`size_t` result together with the updated `_unapplied_tablet_by_txn` member.
When the request's signature is absent from the map the C++ executes
`return true;` in a function whose return type is `size_t`: the bool `true`
converts to the integer 1, which is what this embedding returns there. -/
def left_task_applied (tm : TabletManager) (unappliedByTxn : IntMap (List (Int × Int)))
    (req : TFinishTaskRequest) : Nat × IntMap (List (Int × Int)) :=
  match IntMap.find unappliedByTxn req.signature with
  | none => (1, unappliedByTxn)
  | some pairs =>
    let r := leftTaskAppliedLoop tm pairs
    if r.1 > 0 then (r.1, IntMap.set unappliedByTxn req.signature r.2)
    else (r.1, IntMap.eraseKey unappliedByTxn req.signature)

/-- `FinishTaskInfo` (publish_version_manager.h): the wall-clock
`last_report_time` field is not modelled (real time). -/
structure FinishTaskInfo where
  not_report_tablet_num : Nat
  request : TFinishTaskRequest
deriving DecidableEq

/-- The three request maps of PublishVersionManager that
`wait_publish_task_apply_finish` touches. -/
structure PublishVersionState where
  finish_task_requests : IntMap TFinishTaskRequest
  waitting_finish_task_requests : IntMap FinishTaskInfo
  unapplied_tablet_by_txn : IntMap (List (Int × Int))

/-- One iteration of `PublishVersionManager::wait_publish_task_apply_finish`
(lines 121-135): a request whose `_all_task_applied` is true goes to
`_finish_task_requests`, otherwise it is wrapped in a FinishTaskInfo and goes
to `_waitting_finish_task_requests`. -/
def waitPublishStep (tm : TabletManager) (st : PublishVersionState)
    (req : TFinishTaskRequest) : PublishVersionState :=
  let r := all_task_applied tm st.unapplied_tablet_by_txn req
  if r.1 then
    { st with
      finish_task_requests := IntMap.set st.finish_task_requests req.signature req
      unapplied_tablet_by_txn := r.2 }
  else
    { st with
      waitting_finish_task_requests :=
        IntMap.set st.waitting_finish_task_requests req.signature
          ⟨req.tablet_publish_versions.length, req⟩
      unapplied_tablet_by_txn := r.2 }

/-- `PublishVersionManager::wait_publish_task_apply_finish` over its request
vector. -/
def wait_publish_task_apply_finish (tm : TabletManager) (st : PublishVersionState)
    (reqs : List TFinishTaskRequest) : PublishVersionState :=
  reqs.foldl (waitPublishStep tm) st

/- ===================================================================
   `PublishVersionManager::init` (lines 31-42)
   =================================================================== -/

/-- `MIN_FINISH_PUBLISH_WORKER_COUNT` (line 29). -/
def MIN_FINISH_PUBLISH_WORKER_COUNT : Int := 8

/-- The parameters `init` passes to ThreadPoolBuilder. -/
structure ThreadPoolSpec where
  min_threads : Int
  max_threads : Int
deriving DecidableEq

/-- `PublishVersionManager::init` (lines 31-42): starts from
`config::transaction_publish_version_worker_count`, replaces a non-positive
value by `CpuInfo::num_cores()`, then clamps from below by
MIN_FINISH_PUBLISH_WORKER_COUNT = 8. -/
def init_finish_publish_pool (configured : Int) (num_cores : Int) : ThreadPoolSpec :=
  let c := if configured ≤ 0 then num_cores else configured
  { min_threads := MIN_FINISH_PUBLISH_WORKER_COUNT
    max_threads := max c MIN_FINISH_PUBLISH_WORKER_COUNT }

theorem IntMap.find_set {α : Type} (m : IntMap α) (k : Int) (v : α) :
    IntMap.find (IntMap.set m k v) k = some v := by
  induction m with
  | nil => simp [IntMap.find, IntMap.set, IntMap.eraseKey]
  | cons p rest ih =>
    by_cases h : p.1 = k
    · simp only [IntMap.set, IntMap.eraseKey, List.filter_cons, h]
      simpa [IntMap.set, IntMap.eraseKey] using ih
    · simp only [IntMap.set, IntMap.eraseKey, List.filter_cons, h]
      simpa [IntMap.set, IntMap.eraseKey, IntMap.find, h] using ih

/-- If some entry of the request refers to an existing tablet that is not a
primary-keys tablet or not running, the `_all_task_applied` loop takes the
early `return true` path. -/
theorem allTaskAppliedLoop_offending (tm : TabletManager) (tvs : List TTabletVersionPair)
    (tv : TTabletVersionPair) (t : Tablet) (htv : tv ∈ tvs) (ht : tm tv.tablet_id = some t)
    (hoff : t.keys_type ≠ KeysType.PRIMARY_KEYS ∨ t.tablet_state ≠ TabletState.TABLET_RUNNING) :
    ∀ unapplied flag, allTaskAppliedLoop tm tvs unapplied flag = none := by
  induction tvs with
  | nil => cases htv
  | cons hd rest ih =>
    intro unapplied flag
    rcases List.mem_cons.mp htv with h | h
    · subst h
      simp only [allTaskAppliedLoop, ht]
      rw [if_pos hoff]
    · simp only [allTaskAppliedLoop]
      cases hm : tm hd.tablet_id with
      | none => simp only [hm]; exact ih h unapplied flag
      | some t' =>
        simp only [hm]
        by_cases hc : t'.keys_type ≠ KeysType.PRIMARY_KEYS ∨
            t'.tablet_state ≠ TabletState.TABLET_RUNNING
        · rw [if_pos hc]
        · rw [if_neg hc]
          by_cases hv : t'.max_readable_version < hd.version
          · rw [if_pos hv]; exact ih h _ _
          · rw [if_neg hv]; exact ih h _ _

/-- C9: a finish-task request whose task_status is not OK makes
`_all_task_applied` return true without touching `_unapplied_tablet_by_txn`,
and `wait_publish_task_apply_finish` files it under `_finish_task_requests`
(immediately reportable), not under the waiting map. -/
theorem all_task_applied_failed_status (tm : TabletManager) (st : PublishVersionState)
    (req : TFinishTaskRequest) (h : req.status_code ≠ TStatusCode.OK) :
    all_task_applied tm st.unapplied_tablet_by_txn req = (true, st.unapplied_tablet_by_txn) ∧
    IntMap.find (wait_publish_task_apply_finish tm st [req]).finish_task_requests
      req.signature = some req ∧
    (wait_publish_task_apply_finish tm st [req]).waitting_finish_task_requests
      = st.waitting_finish_task_requests := by
  have hall : all_task_applied tm st.unapplied_tablet_by_txn req
      = (true, st.unapplied_tablet_by_txn) := by
    unfold all_task_applied
    rw [if_pos h]
  refine ⟨hall, ?_, ?_⟩
  · show IntMap.find (waitPublishStep tm st req).finish_task_requests req.signature = some req
    unfold waitPublishStep
    rw [hall]
    exact IntMap.find_set _ _ _
  · show (waitPublishStep tm st req).waitting_finish_task_requests
        = st.waitting_finish_task_requests
    unfold waitPublishStep
    rw [hall]
    rfl

/-- Witness for C9 at a concrete failed request. -/
theorem all_task_applied_failed_status_witness :
    (TFinishTaskRequest.mk 7 TStatusCode.ERROR []).status_code ≠ TStatusCode.OK ∧
    all_task_applied (fun _ => none) [] (TFinishTaskRequest.mk 7 TStatusCode.ERROR [])
      = (true, []) :=
  ⟨by decide,
   (all_task_applied_failed_status (fun _ => none) ⟨[], [], []⟩
      (TFinishTaskRequest.mk 7 TStatusCode.ERROR []) (by decide)).1⟩

/-- C10: if any tablet listed in a finish-task request exists and is either not
a primary-keys tablet or not in TABLET_RUNNING state, `_all_task_applied`
returns true immediately and leaves `_unapplied_tablet_by_txn` unchanged,
whatever the versions of the other tablets in the request. -/
theorem all_task_applied_nonpk_or_not_running (tm : TabletManager)
    (m : IntMap (List (Int × Int))) (req : TFinishTaskRequest)
    (tv : TTabletVersionPair) (t : Tablet)
    (htv : tv ∈ req.tablet_publish_versions)
    (ht : tm tv.tablet_id = some t)
    (hoff : t.keys_type ≠ KeysType.PRIMARY_KEYS ∨ t.tablet_state ≠ TabletState.TABLET_RUNNING) :
    all_task_applied tm m req = (true, m) := by
  unfold all_task_applied
  by_cases hs : req.status_code ≠ TStatusCode.OK
  · rw [if_pos hs]
  · rw [if_neg hs, allTaskAppliedLoop_offending tm _ tv t htv ht hoff]

/-- A concrete tablet manager for the C10 witness: tablet 1 is a duplicate-keys
tablet, tablet 2 a primary-keys tablet whose max readable version is 0. -/
def tmW : TabletManager := fun i =>
  if i = 1 then some ⟨KeysType.DUP_KEYS, TabletState.TABLET_RUNNING, 0⟩
  else if i = 2 then some ⟨KeysType.PRIMARY_KEYS, TabletState.TABLET_RUNNING, 0⟩
  else none

/-- Witness for C10: tablet 2 (primary-keys, readable version 0) is below its
requested version 5, yet the whole request counts as applied because tablet 1
is not a primary-keys tablet. -/
theorem all_task_applied_nonpk_or_not_running_witness :
    ((⟨1, 3⟩ : TTabletVersionPair) ∈
      (TFinishTaskRequest.mk 9 TStatusCode.OK [⟨2, 5⟩, ⟨1, 3⟩]).tablet_publish_versions) ∧
    tmW 1 = some ⟨KeysType.DUP_KEYS, TabletState.TABLET_RUNNING, 0⟩ ∧
    all_task_applied tmW [] (TFinishTaskRequest.mk 9 TStatusCode.OK [⟨2, 5⟩, ⟨1, 3⟩])
      = (true, []) :=
  ⟨by decide, by decide,
   all_task_applied_nonpk_or_not_running tmW [] _ ⟨1, 3⟩
     ⟨KeysType.DUP_KEYS, TabletState.TABLET_RUNNING, 0⟩
     (by decide) (by decide) (by decide)⟩

/-- C1: evaluation of `_left_task_applied` at a request whose signature is
absent from `_unapplied_tablet_by_txn`: the function returns 1 (the C++
`return true;` converted from bool to size_t), not 0 as the spec's
"absent signature means nothing left to apply" contract requires. -/
theorem left_task_applied_absent_signature :
    left_task_applied (fun _ => none) [] (TFinishTaskRequest.mk 42 TStatusCode.OK [])
      = (1, []) ∧ (1 : Nat) ≠ 0 :=
  ⟨rfl, by decide⟩

/-- C3 counterexample: with transaction_publish_version_worker_count = 5
(positive) and 4 cpu cores, init builds the finish-publish pool with
max_threads = max(5, 8) = 8, while the claim's formula
max(configured, min(cpu, 8)) gives 5. -/
theorem init_finish_publish_pool_claim_counterexample :
    (init_finish_publish_pool 5 4).max_threads = 8 ∧
    max (5 : Int) (min 4 8) = 5 ∧ (8 : Int) ≠ 5 := by decide

/-- C3 amended: init builds the pool with min_threads = 8 and max_threads =
max(c, 8), where c is the configured transaction_publish_version_worker_count
when positive and the cpu core count otherwise. -/
theorem init_finish_publish_pool_spec (configured num_cores : Int) :
    (0 < configured →
      init_finish_publish_pool configured num_cores = ⟨8, max configured 8⟩) ∧
    (configured ≤ 0 →
      init_finish_publish_pool configured num_cores = ⟨8, max num_cores 8⟩) := by
  refine ⟨fun h => ?_, fun h => ?_⟩
  · simp only [init_finish_publish_pool, MIN_FINISH_PUBLISH_WORKER_COUNT]
    rw [if_neg (by omega)]
  · simp only [init_finish_publish_pool, MIN_FINISH_PUBLISH_WORKER_COUNT]
    rw [if_pos h]

/-- Witness for the amended C3 at configured = 12, cores = 4. -/
theorem init_finish_publish_pool_spec_witness :
    (0 : Int) < 12 ∧ init_finish_publish_pool 12 4 = ⟨8, max 12 8⟩ :=
  ⟨by decide, (init_finish_publish_pool_spec 12 4).1 (by decide)⟩

/- ===================================================================
   EditVersion / EditVersionWithMerge.  persistent_index.h is not under
   src/; the comparator is pinned by the assertions of
   PersistentIndexTest.test_l2_versions
   (src/be/test/storage/persistent_index_test.cpp, lines 2708-2732).
   =================================================================== -/

/-- An edit version: a (major, minor) pair of 64-bit integers. -/
structure EditVersion where
  major : Int
  minor : Int
deriving DecidableEq

/-- Lexicographic comparison of edit versions (spec section 3). -/
def EditVersion.lt (a b : EditVersion) : Bool :=
  if a.major ≠ b.major then decide (a.major < b.major)
  else decide (a.minor < b.minor)

/-- An edit version together with the merged flag carried by L2 files. -/
structure EditVersionWithMerge where
  version : EditVersion
  merged : Bool
deriving DecidableEq

/-- Modelled from the spec: `EditVersionWithMerge::operator<` (persistent_index.h
is not under src/).  Versions compare lexicographically; at equal (major, minor)
the direction of the merged-flag tie-break is fixed by the assertions of
PersistentIndexTest.test_l2_versions, the only behaviour consistent with them:
the non-merged value is the smaller one. -/
def EditVersionWithMerge.lt (a b : EditVersionWithMerge) : Bool :=
  if EditVersion.lt a.version b.version then true
  else if EditVersion.lt b.version a.version then false
  else !a.merged && b.merged

/-- Shorthand constructor mirroring `EditVersionWithMerge(major, minor, merged)`. -/
def evm (maj mnr : Int) (mg : Bool) : EditVersionWithMerge := ⟨⟨maj, mnr⟩, mg⟩

/-- `INT64_MAX` as used by the test. -/
def INT64_MAX : Int := 9223372036854775807

/-- The thirteen comparisons asserted by PersistentIndexTest.test_l2_versions
(m1..m10 exactly as constructed in the test) hold for the embedded comparator. -/
theorem test_l2_versions_assertions :
    EditVersionWithMerge.lt (evm INT64_MAX INT64_MAX false) (evm INT64_MAX INT64_MAX true) = true ∧
    EditVersionWithMerge.lt (evm INT64_MAX INT64_MAX true) (evm INT64_MAX INT64_MAX false) = false ∧
    EditVersionWithMerge.lt (evm 10 0 true) (evm INT64_MAX INT64_MAX false) = true ∧
    EditVersionWithMerge.lt (evm INT64_MAX INT64_MAX false) (evm 10 0 true) = false ∧
    EditVersionWithMerge.lt (evm 10 0 false) (evm 10 0 true) = true ∧
    EditVersionWithMerge.lt (evm 10 0 true) (evm 10 0 false) = false ∧
    EditVersionWithMerge.lt (evm 10 0 true) (evm 11 0 false) = true ∧
    EditVersionWithMerge.lt (evm 11 0 false) (evm 10 0 true) = false ∧
    EditVersionWithMerge.lt (evm 11 0 false) (evm 11 0 true) = true ∧
    EditVersionWithMerge.lt (evm 11 0 true) (evm 11 0 false) = false ∧
    EditVersionWithMerge.lt (evm 11 0 true) (evm 11 1 true) = true ∧
    EditVersionWithMerge.lt (evm 11 1 false) (evm 11 2 true) = true ∧
    EditVersionWithMerge.lt (evm 11 2 false) (evm 11 2 true) = true := by decide

/-- C2 counterexample: at equal version (10, 0) the non-merged value compares
SMALLER, not greater: lt(merged, non-merged) is false and lt(non-merged, merged)
is true, matching the test's ASSERT_TRUE(m4 < m3) / ASSERT_FALSE(m3 < m4) where
m3 = (10,0,merged) and m4 = (10,0,non-merged).  The claim's "the non-merged one
compares greater under operator<" is false at this input. -/
theorem evwm_claim_counterexample :
    EditVersionWithMerge.lt (evm 10 0 true) (evm 10 0 false) = false ∧
    EditVersionWithMerge.lt (evm 10 0 false) (evm 10 0 true) = true := by decide

/-- C2 amended: characterization of operator< on EditVersionWithMerge: values
with different (major, minor) compare lexicographically by version, and at
equal (major, minor) with different merged flags the MERGED one compares
greater (the non-merged one is the smaller). -/
theorem evwm_lt_characterization (a b : EditVersionWithMerge) :
    EditVersionWithMerge.lt a b = true ↔
      (a.version.major < b.version.major
        ∨ (a.version.major = b.version.major ∧ a.version.minor < b.version.minor)
        ∨ (a.version = b.version ∧ a.merged = false ∧ b.merged = true)) := by
  obtain ⟨⟨amaj, amin⟩, am⟩ := a
  obtain ⟨⟨bmaj, bmin⟩, bm⟩ := b
  simp only [EditVersionWithMerge.lt, EditVersion.lt, EditVersion.mk.injEq]
  by_cases h1 : amaj = bmaj
  · subst h1
    by_cases h2 : amin = bmin
    · subst h2
      cases am <;> cases bm <;> simp <;> omega
    · by_cases h3 : amin < bmin
      · cases am <;> cases bm <;> simp [h2, h3, Ne.symm h2] <;> omega
      · cases am <;> cases bm <;> simp [h2, h3, Ne.symm h2] <;> omega
  · by_cases h3 : amaj < bmaj
    · cases am <;> cases bm <;> simp [h1, h3, Ne.symm h1] <;> omega
    · cases am <;> cases bm <;> simp [h1, h3, Ne.symm h1] <;> omega

/- ===================================================================
   PersistentIndex::modify_l2_versions.  persistent_index.cpp is not
   under src/; modelled from spec section 4.6 and validated against
   PersistentIndexTest.pindex_major_compact_meta
   (src/be/test/storage/persistent_index_test.cpp, lines 3387-3434).
   =================================================================== -/

/-- The L2-related fields of PersistentIndexMetaPB: the list of L2 versions
and the parallel list of merged flags. -/
structure PersistentIndexMetaPB where
  l2_versions : List EditVersion
  l2_version_merged : List Bool
deriving DecidableEq

/-- Element-wise check that the first list is a contiguous prefix of the
second. -/
def versionsMatch : List EditVersion → List EditVersion → Bool
  | [], _ => true
  | _ :: _, [] => false
  | a :: as, b :: bs => decide (a = b) && versionsMatch as bs

/-- Modelled from the spec: `PersistentIndex::modify_l2_versions`
(persistent_index.cpp is not under src/).  Spec section 4.6: the input list
must be a contiguous prefix of meta.l2_versions; on success the prefix (and the
parallel merged flags) is removed and merged_version is prepended with merged =
true; on violation (empty meta or non-prefix input) the operation fails and the
descriptor is untouched.  The Bool is the C++ Status (true = OK); the second
component is the descriptor after the call. -/
def modify_l2_versions (input : List EditVersion) (merged_version : EditVersion)
    (meta : PersistentIndexMetaPB) : Bool × PersistentIndexMetaPB :=
  if meta.l2_versions.isEmpty then (false, meta)
  else if versionsMatch input meta.l2_versions then
    (true, ⟨merged_version :: meta.l2_versions.drop input.length,
            true :: meta.l2_version_merged.drop input.length⟩)
  else (false, meta)

/-- `versionsMatch input l` decides exactly "input is a contiguous prefix of
l". -/
theorem versionsMatch_iff (input l : List EditVersion) :
    versionsMatch input l = true ↔ ∃ rest, l = input ++ rest := by
  induction input generalizing l with
  | nil => simp [versionsMatch]
  | cons a as ih =>
    cases l with
    | nil =>
      simp [versionsMatch]
    | cons b bs =>
      simp only [versionsMatch, Bool.and_eq_true, decide_eq_true_eq, ih, List.cons_append,
        List.cons.injEq]
      constructor
      · rintro ⟨hab, rest, hrest⟩
        exact ⟨rest, hab.symm, hrest⟩
      · rintro ⟨rest, hba, hrest⟩
        exact ⟨hba.symm, rest, hrest⟩

/-- C4: when input_versions is a contiguous prefix of meta.l2_versions the call
succeeds, removes the prefix from both parallel lists and prepends
merged_version with merged flag true, leaving the remaining entries unchanged;
when meta.l2_versions is empty or input_versions is not a contiguous prefix the
call fails and meta is returned untouched. -/
theorem modify_l2_versions_spec (input : List EditVersion) (mv : EditVersion)
    (meta : PersistentIndexMetaPB) :
    (meta.l2_versions ≠ [] → (∃ rest, meta.l2_versions = input ++ rest) →
      modify_l2_versions input mv meta =
        (true, ⟨mv :: meta.l2_versions.drop input.length,
                true :: meta.l2_version_merged.drop input.length⟩)) ∧
    (meta.l2_versions = [] ∨ ¬ (∃ rest, meta.l2_versions = input ++ rest) →
      modify_l2_versions input mv meta = (false, meta)) := by
  constructor
  · intro hne hp
    unfold modify_l2_versions
    rw [if_neg (by simpa [List.isEmpty_iff] using hne),
        if_pos ((versionsMatch_iff input meta.l2_versions).mpr hp)]
  · intro h
    rcases h with h | h
    · unfold modify_l2_versions
      rw [if_pos (by simpa [List.isEmpty_iff] using h)]
    · unfold modify_l2_versions
      by_cases he : meta.l2_versions.isEmpty
      · rw [if_pos he]
      · rw [if_neg he, if_neg (fun hm => h ((versionsMatch_iff input meta.l2_versions).mp hm))]

/-- Witness for C4: the scenario of PersistentIndexTest.pindex_major_compact_meta:
l2 versions (1,0),(1,1),(3,0),(4,1),(5,0) all non-merged; merging the prefix
(1,0),(1,1),(3,0) into (3,0) yields (3,0) merged followed by (4,1),(5,0)
non-merged; after clearing the lists the same call fails. -/
theorem modify_l2_versions_spec_witness :
    modify_l2_versions [⟨1, 0⟩, ⟨1, 1⟩, ⟨3, 0⟩] ⟨3, 0⟩
        ⟨[⟨1, 0⟩, ⟨1, 1⟩, ⟨3, 0⟩, ⟨4, 1⟩, ⟨5, 0⟩], [false, false, false, false, false]⟩
      = (true, ⟨[⟨3, 0⟩, ⟨4, 1⟩, ⟨5, 0⟩], [true, false, false]⟩) ∧
    modify_l2_versions [⟨1, 0⟩, ⟨1, 1⟩, ⟨3, 0⟩] ⟨3, 0⟩ ⟨[], []⟩ = (false, ⟨[], []⟩) := by
  constructor
  · exact ((modify_l2_versions_spec [⟨1, 0⟩, ⟨1, 1⟩, ⟨3, 0⟩] ⟨3, 0⟩
      ⟨[⟨1, 0⟩, ⟨1, 1⟩, ⟨3, 0⟩, ⟨4, 1⟩, ⟨5, 0⟩], [false, false, false, false, false]⟩).1
      (by decide) ⟨[⟨4, 1⟩, ⟨5, 0⟩], by decide⟩).trans (by decide)
  · exact (modify_l2_versions_spec [⟨1, 0⟩, ⟨1, 1⟩, ⟨3, 0⟩] ⟨3, 0⟩
      ⟨[], []⟩).2 (Or.inl rfl)

/- ===================================================================
   ParseUtil::parse_mem_spec (src/be/src/util/parse_util.cpp, lines
   43-113).  StringParser (util/string_parser.hpp) is not under src/ and
   is modelled from the spec; numeric parsing is idealized to exact
   integer / rational arithmetic (IEEE-754 double rounding and int64
   overflow are not modelled).
   =================================================================== -/

/-- Decimal digit test on a character. -/
def isDigitChar (c : Char) : Bool := decide (48 ≤ c.toNat) && decide (c.toNat ≤ 57)

/-- All characters are decimal digits. -/
def allDigits (l : List Char) : Bool := l.all isDigitChar

/-- Numeric value of a digit string, most significant digit first. -/
def digitsVal (l : List Char) : Nat := l.foldl (fun n c => n * 10 + (c.toNat - 48)) 0

/-- Modelled from the spec: StringParser::string_to_int (string_parser.hpp is
not under src/): an optional sign followed by one or more decimal digits. -/
def string_to_int (s : List Char) : Option Int :=
  match s with
  | [] => none
  | c :: rest =>
    if c = '-' then
      if !rest.isEmpty && allDigits rest then some (-(digitsVal rest : Int)) else none
    else if c = '+' then
      if !rest.isEmpty && allDigits rest then some (digitsVal rest : Int) else none
    else if allDigits (c :: rest) then some (digitsVal (c :: rest) : Int) else none

/-- Split a character list at the first dot, if any. -/
def splitAtDot : List Char → List Char × Option (List Char)
  | [] => ([], none)
  | c :: rest =>
    if c = '.' then ([], some rest)
    else
      let r := splitAtDot rest
      (c :: r.1, r.2)

/-- Unsigned decimal float body: digits, optionally with one dot, at least one
digit overall; exact rational value. -/
def floatBody (s : List Char) : Option ℚ :=
  let p := splitAtDot s
  match p.2 with
  | none => if !p.1.isEmpty && allDigits p.1 then some ((digitsVal p.1 : ℚ)) else none
  | some frac =>
    if (!p.1.isEmpty || !frac.isEmpty) && allDigits p.1 && allDigits frac then
      some ((digitsVal p.1 : ℚ) + (digitsVal frac : ℚ) / ((10 : ℚ) ^ frac.length))
    else none

/-- Modelled from the spec: StringParser::string_to_float (string_parser.hpp is
not under src/), idealized to exact rational arithmetic: an optional sign
followed by a decimal float body. -/
def string_to_float (s : List Char) : Option ℚ :=
  match s with
  | [] => none
  | c :: rest =>
    if c = '-' then (floatBody rest).map (fun q => -q)
    else if c = '+' then floatBody rest
    else floatBody (c :: rest)

/-- Truncation of a rational toward zero, the behaviour of the C++
double-to-int64 conversion. -/
def ratTruncToInt (q : ℚ) : Int := q.num.sign * ((q.num.natAbs / q.den : Nat) : Int)

/-- The StatusOr-of-int64 result of parse_mem_spec. -/
inductive MemSpecResult where
  | ok (bytes : Int)
  | invalidArgument
deriving DecidableEq

def MemSpecResult.isOk : MemSpecResult → Bool
  | .ok _ => true
  | .invalidArgument => false

/-- The multiplier branch of parse_mem_spec (lines 90-97): the number part is
parsed as a float and multiplied. -/
def floatBranch (num : List Char) (multiplier : Int) : MemSpecResult :=
  match string_to_float num with
  | none => .invalidArgument
  | some q => .ok (ratTruncToInt ((multiplier : ℚ) * q))

/-- The integer branch of parse_mem_spec (lines 98-110): the number part is
parsed as an int64; for the percent form the result is value/100 of
memory_limit. -/
def intBranch (num : List Char) (is_percent : Bool) (memory_limit : Int) : MemSpecResult :=
  match string_to_int num with
  | none => .invalidArgument
  | some n =>
    if is_percent then .ok (ratTruncToInt ((n : ℚ) / 100 * (memory_limit : ℚ)))
    else .ok n

/-- ParseUtil::parse_mem_spec (lines 43-113): empty input yields 0; otherwise
the last character selects the unit: case-insensitive t/g/m/k multipliers with
float parsing of the prefix, b for plain bytes and % for a fraction of
memory_limit (both with int64 parsing of the prefix); any other last character
means no unit and the whole string is parsed as int64 bytes. -/
def parse_mem_spec (s : List Char) (memory_limit : Int) : MemSpecResult :=
  if s.isEmpty then .ok 0
  else if s.getLastD ' ' = 't' ∨ s.getLastD ' ' = 'T' then
    floatBranch s.dropLast (1024 * 1024 * 1024 * 1024)
  else if s.getLastD ' ' = 'g' ∨ s.getLastD ' ' = 'G' then
    floatBranch s.dropLast (1024 * 1024 * 1024)
  else if s.getLastD ' ' = 'm' ∨ s.getLastD ' ' = 'M' then
    floatBranch s.dropLast (1024 * 1024)
  else if s.getLastD ' ' = 'k' ∨ s.getLastD ' ' = 'K' then
    floatBranch s.dropLast 1024
  else if s.getLastD ' ' = 'b' ∨ s.getLastD ' ' = 'B' then
    intBranch s.dropLast false memory_limit
  else if s.getLastD ' ' = '%' then
    intBranch s.dropLast true memory_limit
  else intBranch s false memory_limit

/-- Claim-side description of the accepted forms (C5 / spec section 6): the
empty string; N (integer); Nb; N% (integer N); Nk, Nm, Ng, Nt (float N); unit
letters case-insensitive.  The percent form takes an integer N: "%" is not a
byte unit, and the code comment ("Parse float - MB or GB") reserves float
parsing for the multiplier units k/m/g/t. -/
def validMemSpec (s : List Char) : Bool :=
  if s.isEmpty then true
  else if s.getLastD ' ' = 't' ∨ s.getLastD ' ' = 'T' ∨ s.getLastD ' ' = 'g' ∨
      s.getLastD ' ' = 'G' ∨ s.getLastD ' ' = 'm' ∨ s.getLastD ' ' = 'M' ∨
      s.getLastD ' ' = 'k' ∨ s.getLastD ' ' = 'K' then
    (string_to_float s.dropLast).isSome
  else if s.getLastD ' ' = 'b' ∨ s.getLastD ' ' = 'B' ∨ s.getLastD ' ' = '%' then
    (string_to_int s.dropLast).isSome
  else (string_to_int s).isSome

theorem floatBranch_isOk (num : List Char) (mult : Int) :
    (floatBranch num mult).isOk = (string_to_float num).isSome := by
  cases h : string_to_float num <;> simp [floatBranch, h, MemSpecResult.isOk]

theorem intBranch_isOk (num : List Char) (p : Bool) (lim : Int) :
    (intBranch num p lim).isOk = (string_to_int num).isSome := by
  cases h : string_to_int num <;> cases p <;> simp [intBranch, h, MemSpecResult.isOk]

/-- Branch selection of parse_mem_spec on a string with an explicit last
character. -/
theorem parse_mem_spec_concat (s : List Char) (u : Char) (lim : Int) :
    parse_mem_spec (s ++ [u]) lim =
      (if u = 't' ∨ u = 'T' then floatBranch s (1024 * 1024 * 1024 * 1024)
       else if u = 'g' ∨ u = 'G' then floatBranch s (1024 * 1024 * 1024)
       else if u = 'm' ∨ u = 'M' then floatBranch s (1024 * 1024)
       else if u = 'k' ∨ u = 'K' then floatBranch s 1024
       else if u = 'b' ∨ u = 'B' then intBranch s false lim
       else if u = '%' then intBranch s true lim
       else intBranch (s ++ [u]) false lim) := by
  unfold parse_mem_spec
  rw [List.getLastD_concat, List.dropLast_concat, if_neg (by simp)]

theorem allDigits_getLastD (l : List Char) (d : Char) (hl : l ≠ [])
    (h : allDigits l = true) : isDigitChar (l.getLastD d) = true := by
  induction l generalizing d with
  | nil => exact absurd rfl hl
  | cons c rest ih =>
    rw [List.getLastD_cons]
    cases rest with
    | nil => simpa [allDigits] using h
    | cons c2 r2 =>
      refine ih c (by simp) ?_
      simp only [allDigits, List.all_cons, Bool.and_eq_true] at h
      simp only [allDigits, List.all_cons, Bool.and_eq_true]
      exact ⟨h.2.1, h.2.2⟩

/-- A successfully parsed integer string is nonempty and ends in a digit. -/
theorem string_to_int_getLast_digit (s : List Char) (n : Int)
    (h : string_to_int s = some n) :
    s ≠ [] ∧ isDigitChar (s.getLastD ' ') = true := by
  cases s with
  | nil => exact absurd h (by simp [string_to_int])
  | cons c rest =>
    refine ⟨by simp, ?_⟩
    rw [List.getLastD_cons]
    simp only [string_to_int] at h
    by_cases hm : c = '-'
    · rw [if_pos hm] at h
      by_cases hc : (!rest.isEmpty && allDigits rest) = true
      · have hr : rest ≠ [] := by
          rcases Bool.and_eq_true_iff.mp hc with ⟨h1, _⟩
          simpa [List.isEmpty_iff] using h1
        exact allDigits_getLastD rest c hr (Bool.and_eq_true_iff.mp hc).2
      · rw [if_neg hc] at h; cases h
    · rw [if_neg hm] at h
      by_cases hp : c = '+'
      · rw [if_pos hp] at h
        by_cases hc : (!rest.isEmpty && allDigits rest) = true
        · have hr : rest ≠ [] := by
            rcases Bool.and_eq_true_iff.mp hc with ⟨h1, _⟩
            simpa [List.isEmpty_iff] using h1
          exact allDigits_getLastD rest c hr (Bool.and_eq_true_iff.mp hc).2
        · rw [if_neg hc] at h; cases h
      · rw [if_neg hp] at h
        have hd : allDigits (c :: rest) = true := by
          by_cases hc : allDigits (c :: rest) = true
          · exact hc
          · rw [if_neg hc] at h; cases h
        cases rest with
        | nil => simpa [allDigits] using hd
        | cons c2 r2 =>
          refine allDigits_getLastD _ c (by simp) ?_
          simp only [allDigits, List.all_cons, Bool.and_eq_true] at hd
          simp only [allDigits, List.all_cons, Bool.and_eq_true]
          exact ⟨hd.2.1, hd.2.2⟩

theorem isDigitChar_ne (c u : Char) (h : isDigitChar c = true)
    (hu : u.toNat < 48 ∨ 57 < u.toNat) : ¬ c = u := by
  intro he
  subst he
  simp only [isDigitChar, Bool.and_eq_true, decide_eq_true_eq] at h
  omega

/-- A digit character is none of the unit suffix characters. -/
theorem digit_not_unit (c : Char) (h : isDigitChar c = true) :
    ¬(c = 't' ∨ c = 'T') ∧ ¬(c = 'g' ∨ c = 'G') ∧ ¬(c = 'm' ∨ c = 'M') ∧
    ¬(c = 'k' ∨ c = 'K') ∧ ¬(c = 'b' ∨ c = 'B') ∧ ¬(c = '%') :=
  ⟨fun hc => hc.elim (isDigitChar_ne c _ h (by decide)) (isDigitChar_ne c _ h (by decide)),
   fun hc => hc.elim (isDigitChar_ne c _ h (by decide)) (isDigitChar_ne c _ h (by decide)),
   fun hc => hc.elim (isDigitChar_ne c _ h (by decide)) (isDigitChar_ne c _ h (by decide)),
   fun hc => hc.elim (isDigitChar_ne c _ h (by decide)) (isDigitChar_ne c _ h (by decide)),
   fun hc => hc.elim (isDigitChar_ne c _ h (by decide)) (isDigitChar_ne c _ h (by decide)),
   fun hc => isDigitChar_ne c _ h (by decide) hc⟩

/-- A string that parses as an integer has no unit suffix: parse_mem_spec takes
the default (plain bytes) branch on it. -/
theorem parse_mem_spec_no_unit (s : List Char) (n lim : Int)
    (h : string_to_int s = some n) : parse_mem_spec s lim = MemSpecResult.ok n := by
  obtain ⟨hne, hd⟩ := string_to_int_getLast_digit s n h
  obtain ⟨h1, h2, h3, h4, h5, h6⟩ := digit_not_unit _ hd
  unfold parse_mem_spec
  rw [if_neg (by simpa [List.isEmpty_iff] using hne),
      if_neg h1, if_neg h2, if_neg h3, if_neg h4, if_neg h5, if_neg h6]
  simp [intBranch, h]

theorem ratTruncToInt_intCast (z : Int) : ratTruncToInt ((z : ℚ)) = z := by
  unfold ratTruncToInt
  rw [Rat.num_intCast, Rat.den_intCast]
  simpa using Int.sign_mul_natAbs z

theorem ratTruncToInt_mul_intCast (m z : Int) :
    ratTruncToInt ((m : ℚ) * (z : ℚ)) = m * z := by
  rw [← Int.cast_mul, ratTruncToInt_intCast]

/-- C5: characterization of parse_mem_spec.  (i) Empty input yields 0.
(ii) Acceptance is exactly the forms of the spec: N (integer, no unit), Nb and
N% (integer N), Nk/Nm/Ng/Nt (float N), with case-insensitive unit letters.
(iii) N and Nb yield N bytes, N% yields N/100 of memory_limit.  (iv) The four
multiplier units scale the float value by 1024^1..1024^4 (exact value, then
truncated toward zero as by the double-to-int64 conversion).  (v) For an
integer-valued N the multiplier forms yield exactly N * 1024^i. -/
theorem parse_mem_spec_spec (lim : Int) :
    (parse_mem_spec [] lim = MemSpecResult.ok 0) ∧
    (∀ s : List Char, (parse_mem_spec s lim).isOk = validMemSpec s) ∧
    (∀ ds n, string_to_int ds = some n →
        parse_mem_spec ds lim = MemSpecResult.ok n ∧
        parse_mem_spec (ds ++ [ 'b' ]) lim = MemSpecResult.ok n ∧
        parse_mem_spec (ds ++ [ 'B' ]) lim = MemSpecResult.ok n ∧
        parse_mem_spec (ds ++ [ '%' ]) lim
          = MemSpecResult.ok (ratTruncToInt ((n : ℚ) / 100 * (lim : ℚ)))) ∧
    (∀ ds q, string_to_float ds = some q →
        (parse_mem_spec (ds ++ [ 'k' ]) lim
            = MemSpecResult.ok (ratTruncToInt ((1024 : ℚ) ^ 1 * q)) ∧
         parse_mem_spec (ds ++ [ 'K' ]) lim
            = MemSpecResult.ok (ratTruncToInt ((1024 : ℚ) ^ 1 * q))) ∧
        (parse_mem_spec (ds ++ [ 'm' ]) lim
            = MemSpecResult.ok (ratTruncToInt ((1024 : ℚ) ^ 2 * q)) ∧
         parse_mem_spec (ds ++ [ 'M' ]) lim
            = MemSpecResult.ok (ratTruncToInt ((1024 : ℚ) ^ 2 * q))) ∧
        (parse_mem_spec (ds ++ [ 'g' ]) lim
            = MemSpecResult.ok (ratTruncToInt ((1024 : ℚ) ^ 3 * q)) ∧
         parse_mem_spec (ds ++ [ 'G' ]) lim
            = MemSpecResult.ok (ratTruncToInt ((1024 : ℚ) ^ 3 * q))) ∧
        (parse_mem_spec (ds ++ [ 't' ]) lim
            = MemSpecResult.ok (ratTruncToInt ((1024 : ℚ) ^ 4 * q)) ∧
         parse_mem_spec (ds ++ [ 'T' ]) lim
            = MemSpecResult.ok (ratTruncToInt ((1024 : ℚ) ^ 4 * q)))) ∧
    (∀ ds (z : Int), string_to_float ds = some ((z : Int) : ℚ) →
        parse_mem_spec (ds ++ [ 'k' ]) lim = MemSpecResult.ok (1024 ^ 1 * z) ∧
        parse_mem_spec (ds ++ [ 'm' ]) lim = MemSpecResult.ok (1024 ^ 2 * z) ∧
        parse_mem_spec (ds ++ [ 'g' ]) lim = MemSpecResult.ok (1024 ^ 3 * z) ∧
        parse_mem_spec (ds ++ [ 't' ]) lim = MemSpecResult.ok (1024 ^ 4 * z)) := by
  refine ⟨rfl, ?_, ?_, ?_, ?_⟩
  · intro s
    unfold parse_mem_spec validMemSpec
    by_cases he : s.isEmpty = true
    · rw [if_pos he, if_pos he]; rfl
    · rw [if_neg he, if_neg he]
      by_cases h1 : s.getLastD ' ' = 't' ∨ s.getLastD ' ' = 'T'
      · rw [if_pos h1, if_pos (by tauto)]
        exact floatBranch_isOk _ _
      · rw [if_neg h1]
        by_cases h2 : s.getLastD ' ' = 'g' ∨ s.getLastD ' ' = 'G'
        · rw [if_pos h2, if_pos (by tauto)]
          exact floatBranch_isOk _ _
        · rw [if_neg h2]
          by_cases h3 : s.getLastD ' ' = 'm' ∨ s.getLastD ' ' = 'M'
          · rw [if_pos h3, if_pos (by tauto)]
            exact floatBranch_isOk _ _
          · rw [if_neg h3]
            by_cases h4 : s.getLastD ' ' = 'k' ∨ s.getLastD ' ' = 'K'
            · rw [if_pos h4, if_pos (by tauto)]
              exact floatBranch_isOk _ _
            · have h8 : ¬(s.getLastD ' ' = 't' ∨ s.getLastD ' ' = 'T' ∨ s.getLastD ' ' = 'g' ∨
                  s.getLastD ' ' = 'G' ∨ s.getLastD ' ' = 'm' ∨ s.getLastD ' ' = 'M' ∨
                  s.getLastD ' ' = 'k' ∨ s.getLastD ' ' = 'K') := by tauto
              rw [if_neg h4, if_neg h8]
              by_cases h5 : s.getLastD ' ' = 'b' ∨ s.getLastD ' ' = 'B'
              · have h9 : s.getLastD ' ' = 'b' ∨ s.getLastD ' ' = 'B' ∨ s.getLastD ' ' = '%' := by
                  tauto
                rw [if_pos h5, if_pos h9]
                exact intBranch_isOk _ _ _
              · rw [if_neg h5]
                by_cases h6 : s.getLastD ' ' = '%'
                · rw [if_pos h6, if_pos (by tauto)]
                  exact intBranch_isOk _ _ _
                · rw [if_neg h6, if_neg (by tauto)]
                  exact intBranch_isOk _ _ _
  · intro ds n h
    refine ⟨parse_mem_spec_no_unit ds n lim h, ?_, ?_, ?_⟩
    · rw [parse_mem_spec_concat, if_neg (by decide), if_neg (by decide), if_neg (by decide),
          if_neg (by decide), if_pos (by decide)]
      simp [intBranch, h]
    · rw [parse_mem_spec_concat, if_neg (by decide), if_neg (by decide), if_neg (by decide),
          if_neg (by decide), if_pos (by decide)]
      simp [intBranch, h]
    · rw [parse_mem_spec_concat, if_neg (by decide), if_neg (by decide), if_neg (by decide),
          if_neg (by decide), if_neg (by decide), if_pos (by decide)]
      simp [intBranch, h]
  · intro ds q h
    refine ⟨⟨?_, ?_⟩, ⟨?_, ?_⟩, ⟨?_, ?_⟩, ⟨?_, ?_⟩⟩ <;>
      [rw [parse_mem_spec_concat, if_neg (by decide), if_neg (by decide), if_neg (by decide),
            if_pos (by decide)];
       rw [parse_mem_spec_concat, if_neg (by decide), if_neg (by decide), if_neg (by decide),
            if_pos (by decide)];
       rw [parse_mem_spec_concat, if_neg (by decide), if_neg (by decide), if_pos (by decide)];
       rw [parse_mem_spec_concat, if_neg (by decide), if_neg (by decide), if_pos (by decide)];
       rw [parse_mem_spec_concat, if_neg (by decide), if_pos (by decide)];
       rw [parse_mem_spec_concat, if_neg (by decide), if_pos (by decide)];
       rw [parse_mem_spec_concat, if_pos (by decide)];
       rw [parse_mem_spec_concat, if_pos (by decide)]] <;>
      simp [floatBranch, h] <;> norm_num
  · intro ds z h
    refine ⟨?_, ?_, ?_, ?_⟩
    · rw [parse_mem_spec_concat, if_neg (by decide), if_neg (by decide), if_neg (by decide),
          if_pos (by decide)]
      simp only [floatBranch, h]
      rw [ratTruncToInt_mul_intCast]
      norm_num
    · rw [parse_mem_spec_concat, if_neg (by decide), if_neg (by decide), if_pos (by decide)]
      simp only [floatBranch, h]
      rw [ratTruncToInt_mul_intCast]
      norm_num
    · rw [parse_mem_spec_concat, if_neg (by decide), if_pos (by decide)]
      simp only [floatBranch, h]
      rw [ratTruncToInt_mul_intCast]
      norm_num
    · rw [parse_mem_spec_concat, if_pos (by decide)]
      simp only [floatBranch, h]
      rw [ratTruncToInt_mul_intCast]
      norm_num

/-- Witness for C5 at concrete inputs: "25" (plain bytes), "25%" (percent of
memory_limit 200), "3k" (kilobytes, both rational and integer-valued forms),
and the acceptance equation at the non-form "x". -/
theorem parse_mem_spec_spec_witness :
    string_to_int [ '2', '5' ] = some 25 ∧
    string_to_float [ '3' ] = some 3 ∧
    parse_mem_spec [ '2', '5' ] 200 = MemSpecResult.ok 25 ∧
    parse_mem_spec ([ '2', '5' ] ++ [ '%' ]) 200
      = MemSpecResult.ok (ratTruncToInt (((25 : Int) : ℚ) / 100 * ((200 : Int) : ℚ))) ∧
    parse_mem_spec ([ '3' ] ++ [ 'k' ]) 200
      = MemSpecResult.ok (ratTruncToInt ((1024 : ℚ) ^ 1 * 3)) ∧
    parse_mem_spec ([ '3' ] ++ [ 't' ]) 200 = MemSpecResult.ok (1024 ^ 4 * 3) ∧
    (parse_mem_spec [ 'x' ] 200).isOk = validMemSpec [ 'x' ] := by
  refine ⟨by decide, by decide, ?_, ?_, ?_, ?_, ?_⟩
  · exact ((parse_mem_spec_spec 200).2.2.1 [ '2', '5' ] 25 (by decide)).1
  · exact ((parse_mem_spec_spec 200).2.2.1 [ '2', '5' ] 25 (by decide)).2.2.2
  · exact ((parse_mem_spec_spec 200).2.2.2.1 [ '3' ] 3 (by decide)).1.1
  · exact ((parse_mem_spec_spec 200).2.2.2.2 [ '3' ] 3 (by decide)).2.2.2
  · exact (parse_mem_spec_spec 200).2.1 [ 'x' ]

/- ===================================================================
   MutableIndex (L0 shard).  persistent_index.cpp/.h are not under src/;
   modelled from spec section 4.2 and validated against
   PersistentIndexTest.test_fixlen_mutable_index (lines 55-85).
   =================================================================== -/

/-- Modelled from the spec: a MutableIndex shard is a hash map from opaque
keys to IndexValues; keys are idealized as naturals, values as integers.  The
map is an association list, newest binding first; an existing key is never
re-bound, so lookup of present keys is stable under inserts of other keys. -/
structure MutableIndexModel where
  kvs : List (Nat × Int)
deriving DecidableEq

def miContains (m : MutableIndexModel) (k : Nat) : Bool :=
  m.kvs.any (fun p => p.1 == k)

def miGet (m : MutableIndexModel) (k : Nat) : Option Int :=
  (List.find? (fun p => p.1 == k) m.kvs).map Prod.snd

/-- Modelled from the spec: batched insert (spec section 4.2): the batch is
processed in order and fails on the first duplicate key; prior keys of the
same batch remain inserted; an existing key's value is never modified.  The
Bool is the C++ Status (true = OK), paired with the resulting index. -/
def miInsert (m : MutableIndexModel) : List (Nat × Int) → Bool × MutableIndexModel
  | [] => (true, m)
  | (k, v) :: rest =>
    if miContains m k then (false, m)
    else miInsert ⟨(k, v) :: m.kvs⟩ rest

theorem miGet_some_contains (m : MutableIndexModel) (k : Nat) (v : Int)
    (h : miGet m k = some v) : miContains m k = true := by
  unfold miGet at h
  cases hf : List.find? (fun p => p.1 == k) m.kvs with
  | none => rw [hf] at h; cases h
  | some p =>
    have hm := List.mem_of_find?_eq_some hf
    have hp := List.find?_some hf
    exact List.any_eq_true.mpr ⟨p, hm, hp⟩

theorem miContains_cons (m : MutableIndexModel) (k k1 : Nat) (v1 : Int)
    (h : miContains m k = true) : miContains ⟨(k1, v1) :: m.kvs⟩ k = true := by
  simp only [miContains, List.any_cons, Bool.or_eq_true] at h ⊢
  exact Or.inr h

/-- Inserting a batch never changes the value of a key that is already
present. -/
theorem miInsert_preserves_get (m : MutableIndexModel) (batch : List (Nat × Int))
    (k : Nat) (v : Int) (h : miGet m k = some v) :
    miGet (miInsert m batch).2 k = some v := by
  induction batch generalizing m with
  | nil => simpa [miInsert] using h
  | cons q rest ih =>
    obtain ⟨k1, v1⟩ := q
    by_cases hc : miContains m k1 = true
    · simpa [miInsert, hc] using h
    · have hne : k1 ≠ k := fun he => hc (he ▸ miGet_some_contains m k v h)
      have h2 : miGet ⟨(k1, v1) :: m.kvs⟩ k = some v := by
        unfold miGet
        rw [List.find?_cons_of_neg _ (by simpa using hne)]
        exact h
      simp only [miInsert, hc, Bool.false_eq_true, if_false]
      exact ih _ h2

/-- Inserting a batch that contains a key already present fails. -/
theorem miInsert_dup_fails (m : MutableIndexModel) (batch : List (Nat × Int)) (k : Nat)
    (hk : k ∈ batch.map Prod.fst) (hc : miContains m k = true) :
    (miInsert m batch).1 = false := by
  induction batch generalizing m with
  | nil => simp at hk
  | cons q rest ih =>
    obtain ⟨k1, v1⟩ := q
    by_cases h1 : miContains m k1 = true
    · simp [miInsert, h1]
    · have hne : k ≠ k1 := fun he => h1 (he ▸ hc)
      have hk' : k ∈ rest.map Prod.fst := by
        simp only [List.map_cons, List.mem_cons] at hk
        rcases hk with h | h
        · exact absurd h hne
        · exact h
      simp only [miInsert, h1, Bool.false_eq_true, if_false]
      exact ih _ hk' (miContains_cons m k k1 v1 hc)

/-- Inserting a batch of pairwise-distinct keys none of which is present
succeeds, and afterwards every key of the batch maps to its batch value. -/
theorem miInsert_fresh_ok (m : MutableIndexModel) (batch : List (Nat × Int))
    (hnodup : (batch.map Prod.fst).Nodup)
    (hfresh : ∀ p ∈ batch, miContains m p.1 = false) :
    (miInsert m batch).1 = true ∧
    ∀ p ∈ batch, miGet (miInsert m batch).2 p.1 = some p.2 := by
  induction batch generalizing m with
  | nil => exact ⟨rfl, by simp⟩
  | cons q rest ih =>
    obtain ⟨k1, v1⟩ := q
    have hc : miContains m k1 = false := hfresh (k1, v1) (by simp)
    have hnodup' : (rest.map Prod.fst).Nodup := (List.nodup_cons.mp (by simpa using hnodup)).2
    have hhead : k1 ∉ rest.map Prod.fst := (List.nodup_cons.mp (by simpa using hnodup)).1
    have hfresh' : ∀ p ∈ rest, miContains ⟨(k1, v1) :: m.kvs⟩ p.1 = false := by
      intro p hp
      have hne : k1 ≠ p.1 := fun he => hhead (he ▸ List.mem_map_of_mem Prod.fst hp)
      have hf : miContains m p.1 = false := hfresh p (List.mem_cons_of_mem _ hp)
      simp only [miContains, List.any_cons, Bool.or_eq_true, beq_iff_eq] at hf ⊢
      simpa [hne] using hf
    obtain ⟨hok, hget⟩ := ih ⟨(k1, v1) :: m.kvs⟩ hnodup' hfresh'
    have hstep : miInsert m ((k1, v1) :: rest) = miInsert ⟨(k1, v1) :: m.kvs⟩ rest := by
      simp [miInsert, hc]
    refine ⟨by rw [hstep]; exact hok, ?_⟩
    intro p hp
    rcases List.mem_cons.mp hp with h | h
    · subst h
      rw [hstep]
      refine miInsert_preserves_get _ _ _ _ ?_
      unfold miGet
      rw [List.find?_cons_of_pos _ (by simp)]
      rfl
    · rw [hstep]
      exact hget p h

/-- C6: after a successful insert of a batch of distinct fresh keys, a second
insert of any batch containing one of those keys returns a non-OK
(AlreadyExists) status, and the key still maps to the value from the original
insert afterwards. -/
theorem mutable_index_insert_unique (m : MutableIndexModel)
    (batch1 batch2 : List (Nat × Int))
    (hnodup : (batch1.map Prod.fst).Nodup)
    (hfresh : ∀ p ∈ batch1, miContains m p.1 = false)
    (k : Nat) (v : Int) (hkv : (k, v) ∈ batch1) (hk2 : k ∈ batch2.map Prod.fst) :
    (miInsert m batch1).1 = true ∧
    (miInsert (miInsert m batch1).2 batch2).1 = false ∧
    miGet (miInsert (miInsert m batch1).2 batch2).2 k = some v := by
  obtain ⟨hok, hget⟩ := miInsert_fresh_ok m batch1 hnodup hfresh
  have hv : miGet (miInsert m batch1).2 k = some v := hget (k, v) hkv
  exact ⟨hok, miInsert_dup_fails _ _ k hk2 (miGet_some_contains _ _ _ hv),
    miInsert_preserves_get _ _ _ _ hv⟩

/-- Witness for C6: insert keys 1, 2 with values 2, 4 into an empty shard; a
second batch containing key 2 fails and key 2 still maps to 4. -/
theorem mutable_index_insert_unique_witness :
    (miInsert ⟨[]⟩ [(1, 2), (2, 4)]).1 = true ∧
    (miInsert (miInsert ⟨[]⟩ [(1, 2), (2, 4)]).2 [(5, 9), (2, 7)]).1 = false ∧
    miGet (miInsert (miInsert ⟨[]⟩ [(1, 2), (2, 4)]).2 [(5, 9), (2, 7)]).2 2 = some 4 :=
  mutable_index_insert_unique ⟨[]⟩ [(1, 2), (2, 4)] [(5, 9), (2, 7)]
    (by decide) (by decide) 2 4 (by decide) (by decide)

/- ===================================================================
   get_move_buckets (immutable writer page split).  persistent_index.cpp
   is not under src/; modelled from spec section 4.3 and validated
   against PersistentIndexTest.test_get_move_buckets (lines 1892-1916).
   =================================================================== -/

/-- Record count of bucket i in the page (0 when out of range). -/
def bucketCount (counts : List Nat) (i : Nat) : Nat := counts.getD i 0

/-- Sum of the record counts of the selected bucket indices. -/
def bucketSum (counts : List Nat) (idxs : List Nat) : Nat :=
  (idxs.map (bucketCount counts)).sum

/-- Preference order for moving buckets: larger record count first (so the
selected set is as small as possible), ties broken by lower index. -/
def moveOrder (counts : List Nat) (i j : Nat) : Bool :=
  decide (bucketCount counts j < bucketCount counts i) ||
    (decide (bucketCount counts i = bucketCount counts j) && decide (i ≤ j))

/-- Take indices in order until their record counts reach the target. -/
def pickUntil (counts : List Nat) : Nat → List Nat → List Nat
  | _, [] => []
  | target, i :: rest =>
    if target = 0 then []
    else if target ≤ bucketCount counts i then [i]
    else i :: pickUntil counts (target - bucketCount counts i) rest

/-- Modelled from the spec: `get_move_buckets(target, bucket_packs_in_page)`
(persistent_index.cpp is not under src/): selects a smallest set of bucket
indices whose record counts sum to at least target, preferring fuller buckets
and, among equals, lower indices (spec section 4.3). -/
def get_move_buckets (target : Nat) (counts : List Nat) : List Nat :=
  pickUntil counts target
    (List.insertionSort (fun i j => moveOrder counts i j = true)
      (List.range counts.length))

theorem pickUntil_reaches (counts : List Nat) (target : Nat) (idxs : List Nat)
    (h : target ≤ bucketSum counts idxs) :
    target ≤ bucketSum counts (pickUntil counts target idxs) := by
  induction idxs generalizing target with
  | nil => simpa [bucketSum, pickUntil] using h
  | cons i rest ih =>
    by_cases h0 : target = 0
    · subst h0; simp [pickUntil]
    · by_cases h1 : target ≤ bucketCount counts i
      · simpa [pickUntil, h0, h1, bucketSum] using h1
      · have hc : bucketSum counts (i :: rest)
            = bucketCount counts i + bucketSum counts rest := by simp [bucketSum]
        have h2 : target - bucketCount counts i ≤ bucketSum counts rest := by
          rw [hc] at h
          omega
        have h3 := ih (target - bucketCount counts i) h2
        have hcc : bucketSum counts (i :: pickUntil counts (target - bucketCount counts i) rest)
            = bucketCount counts i
              + bucketSum counts (pickUntil counts (target - bucketCount counts i) rest) := by
          simp [bucketSum]
        simp only [pickUntil]
        rw [if_neg h0, if_neg h1, hcc]
        omega

theorem bucketSum_perm (counts : List Nat) (l1 l2 : List Nat) (h : l1.Perm l2) :
    bucketSum counts l1 = bucketSum counts l2 :=
  List.Perm.sum_eq (List.Perm.map _ h)

theorem bucketSum_range (counts : List Nat) :
    bucketSum counts (List.range counts.length) = counts.sum := by
  induction counts with
  | nil => rfl
  | cons c cs ih =>
    rw [List.length_cons, List.range_succ_eq_map]
    simp only [bucketSum, List.map_cons, List.map_map, List.sum_cons]
    have hmap : List.map (bucketCount (c :: cs) ∘ Nat.succ) (List.range cs.length)
        = List.map (bucketCount cs) (List.range cs.length) := by
      refine List.map_congr_left ?_
      intro a _
      simp [bucketCount]
    rw [hmap]
    simp only [bucketSum] at ih
    simp [bucketCount, ih]

/-- C7: for every page bucket-count array and every target not exceeding the
total record count, get_move_buckets returns bucket indices whose record
counts sum to at least the target. -/
theorem get_move_buckets_reaches (target : Nat) (counts : List Nat)
    (h : target ≤ counts.sum) :
    target ≤ bucketSum counts (get_move_buckets target counts) := by
  unfold get_move_buckets
  apply pickUntil_reaches
  rw [bucketSum_perm counts _ _ (List.perm_insertionSort _ _), bucketSum_range]
  exact h

/-- Witness for C7 at counts [3, 1, 4] and target 6 (total 8). -/
theorem get_move_buckets_reaches_witness :
    (6 : Nat) ≤ List.sum [3, 1, 4] ∧
    6 ≤ bucketSum [3, 1, 4] (get_move_buckets 6 [3, 1, 4]) :=
  ⟨by decide, get_move_buckets_reaches 6 [3, 1, 4] (by decide)⟩

/- ===================================================================
   PersistentIndexCompactionManager.  Its source is not under src/;
   modelled from spec section 4.7 and validated against
   PersistentIndexTest.pindex_compaction_disk_limit (lines 3196-3223).
   =================================================================== -/

/-- Modelled from the spec: the compaction manager state: the set of running
tablet ids and the per-data-directory task counts (data directories idealized
as integer ids, counts as C++ ints). -/
structure CompactionMgrState where
  running_tablets : List Int
  dir_task_num : IntMap Int
deriving DecidableEq

def getCount (m : IntMap Int) (d : Int) : Int := (IntMap.find m d).getD 0

/-- `_data_dir_to_task_num_map[dir] += delta`. -/
def bumpCount (m : IntMap Int) (d : Int) (delta : Int) : IntMap Int :=
  IntMap.set m d (getCount m d + delta)

def is_running (st : CompactionMgrState) (t : Int) : Bool :=
  st.running_tablets.any (fun x => x == t)

/-- Modelled from the spec: mark_running(tablet, dir) inserts the tablet into
the running set and increments the dir's task count. -/
def mark_running (st : CompactionMgrState) (t d : Int) : CompactionMgrState :=
  ⟨if is_running st t then st.running_tablets else t :: st.running_tablets,
   bumpCount st.dir_task_num d 1⟩

/-- Modelled from the spec: unmark_running(tablet, dir) erases the tablet from
the running set and decrements the dir's task count. -/
def unmark_running (st : CompactionMgrState) (t d : Int) : CompactionMgrState :=
  ⟨st.running_tablets.filter (fun x => !(x == t)), bumpCount st.dir_task_num d (-1)⟩

/-- Modelled from the spec: disk_limit(dir) is true iff the dir's current task
count is at least pindex_major_compaction_limit_per_disk (passed as limit). -/
def disk_limit (st : CompactionMgrState) (d : Int) (limit : Int) : Bool :=
  decide (limit ≤ getCount st.dir_task_num d)

/-- A mark or unmark call. -/
inductive CompactionOp where
  | mark (tablet dir : Int)
  | unmark (tablet dir : Int)
deriving DecidableEq

def applyOp (st : CompactionMgrState) : CompactionOp → CompactionMgrState
  | .mark t d => mark_running st t d
  | .unmark t d => unmark_running st t d

def applyOps (st : CompactionMgrState) (ops : List CompactionOp) : CompactionMgrState :=
  ops.foldl applyOp st

/-- The (tablet, dir) pairs currently marked after a call sequence: mark adds
the pair, unmark removes the tablet's pair. -/
def markedAfter (g : List (Int × Int)) : List CompactionOp → List (Int × Int)
  | [] => g
  | .mark t d :: rest => markedAfter ((t, d) :: g) rest
  | .unmark t _ :: rest => markedAfter (g.filter (fun p => !(p.1 == t))) rest

def tabletMarked (g : List (Int × Int)) (t : Int) : Bool := g.any (fun p => p.1 == t)

/-- Well-formed call sequences: each mark is of a tablet not currently marked
and each unmark of a currently marked tablet with the dir it was marked on --
the usage pattern spec section 4.7's scheduler guarantees (it skips running
tablets, and tasks unmark with their own dir). -/
def wfOps (g : List (Int × Int)) : List CompactionOp → Bool
  | [] => true
  | .mark t d :: rest => !tabletMarked g t && wfOps ((t, d) :: g) rest
  | .unmark t d :: rest =>
      g.any (fun p => decide (p = (t, d)))
        && wfOps (g.filter (fun p => !(p.1 == t))) rest

/-- Coupling between a manager state and the abstract marked-pair list. -/
def coupled (st : CompactionMgrState) (g : List (Int × Int)) : Prop :=
  (∀ t, is_running st t = tabletMarked g t) ∧
  (∀ d, getCount st.dir_task_num d
    = ((g.filter (fun p => p.2 == d)).length : Int)) ∧
  (g.map Prod.fst).Nodup

theorem bool_eq_of_iff {a b : Bool} (h : a = true ↔ b = true) : a = b := by
  cases a <;> cases b <;> simp_all

theorem IntMap.find_set_ne {α : Type} (m : IntMap α) (k k' : Int) (v : α) (h : k' ≠ k) :
    IntMap.find (IntMap.set m k v) k' = IntMap.find m k' := by
  induction m with
  | nil => simp [IntMap.find, IntMap.set, IntMap.eraseKey, Ne.symm h]
  | cons p rest ih =>
    by_cases hp : p.1 = k
    · have h2 : ¬ p.1 = k' := fun he => h (he.symm.trans hp)
      simp only [IntMap.set, IntMap.eraseKey, List.filter_cons, hp, beq_self_eq_true,
        Bool.not_true, Bool.false_eq_true, if_false]
      simp only [IntMap.set, IntMap.eraseKey] at ih
      rw [ih]
      unfold IntMap.find
      rw [List.find?_cons_of_neg _ (by simpa using h2)]
    · simp only [IntMap.set, IntMap.eraseKey, List.filter_cons]
      rw [if_pos (by simpa using hp)]
      by_cases h3 : p.1 = k'
      · unfold IntMap.find
        rw [List.cons_append, List.find?_cons_of_pos _ (by simpa using h3),
          List.find?_cons_of_pos _ (by simpa using h3)]
      · unfold IntMap.find
        rw [List.cons_append, List.find?_cons_of_neg _ (by simpa using h3),
          List.find?_cons_of_neg _ (by simpa using h3)]
        simp only [IntMap.set, IntMap.eraseKey, IntMap.find] at ih
        rw [ih]

theorem getCount_bump (m : IntMap Int) (d delta x : Int) :
    getCount (bumpCount m d delta) x
      = if x = d then getCount m d + delta else getCount m x := by
  by_cases h : x = d
  · subst h; simp [getCount, bumpCount, IntMap.find_set]
  · simp [getCount, bumpCount, IntMap.find_set_ne _ _ _ _ h, h]

/-- Marking a fresh tablet preserves the coupling, with its pair prepended. -/
theorem coupled_mark (st : CompactionMgrState) (g : List (Int × Int)) (t d : Int)
    (hc : coupled st g) (hnm : tabletMarked g t = false) :
    coupled (mark_running st t d) ((t, d) :: g) := by
  obtain ⟨hr, hcnt, hnd⟩ := hc
  refine ⟨?_, ?_, ?_⟩
  · intro x
    have hx : st.running_tablets.any (fun y => y == x) = g.any (fun p => p.1 == x) := hr x
    have hrt : st.running_tablets.any (fun y => y == t) = false := (hr t).trans hnm
    simp [mark_running, is_running, tabletMarked, List.any_cons, hrt, hx]
  · intro dd
    have hb : getCount (mark_running st t d).dir_task_num dd
        = if dd = d then getCount st.dir_task_num d + 1 else getCount st.dir_task_num dd :=
      getCount_bump st.dir_task_num d 1 dd
    rw [hb]
    by_cases h : dd = d
    · subst h
      rw [if_pos rfl, hcnt dd]
      simp only [List.filter_cons]
      simp only [beq_self_eq_true, decide_True, if_true, List.length_cons]
      push_cast
      ring
    · rw [if_neg h, hcnt dd]
      simp only [List.filter_cons]
      have hne : (((t, d).2 == dd) = false) := beq_eq_false_iff_ne.mpr (fun he => h he.symm)
      simp [hne]
  · simp only [List.map_cons]
    refine List.nodup_cons.mpr ⟨?_, hnd⟩
    intro hmem
    obtain ⟨p, hp, hpt⟩ := List.mem_map.mp hmem
    have : tabletMarked g t = true := List.any_eq_true.mpr ⟨p, hp, by simp [hpt]⟩
    rw [hnm] at this; cases this

/-- Removing the unique entry of tablet t (marked on dir d) removes exactly one
entry from dir d's count and none from any other dir. -/
theorem filter_dir_erase (g : List (Int × Int)) (t d : Int)
    (hnd : (g.map Prod.fst).Nodup) (hmem : (t, d) ∈ g) (dd : Int) :
    (g.filter (fun p => p.2 == dd)).length
      = ((g.filter (fun p => !(p.1 == t))).filter (fun p => p.2 == dd)).length
        + (if dd = d then 1 else 0) := by
  induction g with
  | nil => cases hmem
  | cons a rest ih =>
    obtain ⟨ak, ad⟩ := a
    have hndr : (rest.map Prod.fst).Nodup := (List.nodup_cons.mp (by simpa using hnd)).2
    have hhead : ak ∉ rest.map Prod.fst := (List.nodup_cons.mp (by simpa using hnd)).1
    by_cases hat : ak = t
    · subst hat
      have hrest_not : ∀ p ∈ rest, ¬ p.1 = ak :=
        fun p hp he => hhead (he ▸ List.mem_map_of_mem Prod.fst hp)
      have had : ad = d := by
        rcases List.mem_cons.mp hmem with h | h
        · exact (Prod.mk.injEq _ _ _ _ ▸ h.symm).2
        · exact absurd rfl (hrest_not _ h)
      subst had
      have hrfilter : rest.filter (fun p => !(p.1 == ak)) = rest := by
        refine List.filter_eq_self.mpr ?_
        intro p hp
        simpa using hrest_not p hp
      simp only [List.filter_cons, beq_self_eq_true, Bool.not_true, Bool.false_eq_true,
        if_false, hrfilter]
      by_cases hdd : dd = ad
      · subst hdd
        simp
      · have hne : ((ad == dd) = false) := beq_eq_false_iff_ne.mpr (fun he => hdd he.symm)
        simp [hne, hdd]
    · have hm : (t, d) ∈ rest := by
        rcases List.mem_cons.mp hmem with h | h
        · exact absurd (congrArg Prod.fst h.symm) hat
        · exact h
      have hkeep : ((!(ak == t)) = true) := by simpa using hat
      simp only [List.filter_cons, hkeep, if_true]
      by_cases hdd : (ad == dd) = true
      · simp only [hdd, if_true, List.length_cons]
        rw [ih hndr hm]
        omega
      · simp only [hdd, Bool.false_eq_true, if_false]
        exact ih hndr hm

/-- Unmarking a marked tablet preserves the coupling, with its pair removed. -/
theorem coupled_unmark (st : CompactionMgrState) (g : List (Int × Int)) (t d : Int)
    (hc : coupled st g) (hmem : (t, d) ∈ g) :
    coupled (unmark_running st t d) (g.filter (fun p => !(p.1 == t))) := by
  obtain ⟨hr, hcnt, hnd⟩ := hc
  refine ⟨?_, ?_, ?_⟩
  · intro x
    apply bool_eq_of_iff
    simp only [unmark_running, is_running, tabletMarked, List.any_eq_true, List.mem_filter,
      Bool.and_eq_true, Bool.not_eq_true', beq_iff_eq, beq_eq_false_iff_ne]
    constructor
    · rintro ⟨y, ⟨hy, hyt⟩, hyx⟩
      subst hyx
      have : is_running st y = true := by
        simp only [is_running, List.any_eq_true]
        exact ⟨y, hy, by simp⟩
      rw [hr y] at this
      simp only [tabletMarked, List.any_eq_true, beq_iff_eq] at this
      obtain ⟨p, hp, hpx⟩ := this
      exact ⟨p, ⟨hp, hpx ▸ hyt⟩, hpx⟩
    · rintro ⟨p, ⟨hp, hpt⟩, hpx⟩
      have : tabletMarked g x = true := by
        simp only [tabletMarked, List.any_eq_true]
        exact ⟨p, hp, by simpa using hpx⟩
      rw [← hr x] at this
      simp only [is_running, List.any_eq_true, beq_iff_eq] at this
      obtain ⟨y, hy, hyx⟩ := this
      exact ⟨y, ⟨hy, hyx ▸ (hpx ▸ hpt)⟩, hyx⟩
  · intro dd
    have hb : getCount (unmark_running st t d).dir_task_num dd
        = if dd = d then getCount st.dir_task_num d + (-1) else getCount st.dir_task_num dd :=
      getCount_bump st.dir_task_num d (-1) dd
    rw [hb]
    have hf := filter_dir_erase g t d hnd hmem dd
    by_cases h : dd = d
    · subst h
      rw [if_pos rfl, hcnt dd]
      rw [if_pos rfl] at hf
      omega
    · rw [if_neg h, hcnt dd]
      rw [if_neg h] at hf
      omega
  · exact List.Nodup.sublist (List.Sublist.map Prod.fst (List.filter_sublist g)) hnd

/-- The coupling invariant is preserved by every well-formed call sequence. -/
theorem coupled_applyOps (ops : List CompactionOp) :
    ∀ (st : CompactionMgrState) (g : List (Int × Int)),
      coupled st g → wfOps g ops = true →
      coupled (applyOps st ops) (markedAfter g ops) := by
  induction ops with
  | nil => intro st g hc _; exact hc
  | cons op rest ih =>
    intro st g hc hwf
    cases op with
    | mark t d =>
      simp only [wfOps, Bool.and_eq_true] at hwf
      have hnm : tabletMarked g t = false := by simpa using hwf.1
      exact ih _ _ (coupled_mark st g t d hc hnm) hwf.2
    | unmark t d =>
      simp only [wfOps, Bool.and_eq_true] at hwf
      have hm : (t, d) ∈ g := by
        obtain ⟨p, hp, hpe⟩ := List.any_eq_true.mp hwf.1
        exact (of_decide_eq_true hpe) ▸ hp
      exact ih _ _ (coupled_unmark st g t d hc hm) hwf.2

/-- C8: after any well-formed sequence of mark_running / unmark_running calls
starting from the empty manager, is_running(t) is true iff t is currently
marked, and disk_limit(dir) is true iff the number of currently marked tablets
on dir is at least pindex_major_compaction_limit_per_disk. -/
theorem compaction_manager_spec (ops : List CompactionOp) (hwf : wfOps [] ops = true) :
    (∀ t, is_running (applyOps ⟨[], []⟩ ops) t = tabletMarked (markedAfter [] ops) t) ∧
    (∀ d limit, disk_limit (applyOps ⟨[], []⟩ ops) d limit
      = decide (limit ≤ (((markedAfter [] ops).filter (fun p => p.2 == d)).length : Int))) := by
  obtain ⟨h1, h2, _⟩ := coupled_applyOps ops ⟨[], []⟩ []
    ⟨fun _ => rfl, fun _ => rfl, List.nodup_nil⟩ hwf
  refine ⟨h1, ?_⟩
  intro d limit
  unfold disk_limit
  rw [h2]

/-- Witness for C8, mirroring the disk-limit test: mark tablets 1 and 2 on dir
7, then unmark tablet 1; tablet 1 is no longer running, tablet 2 is, and with
limit 2 the dir is below the limit again. -/
theorem compaction_manager_spec_witness :
    wfOps [] [CompactionOp.mark 1 7, CompactionOp.mark 2 7, CompactionOp.unmark 1 7] = true ∧
    is_running (applyOps ⟨[], []⟩
      [CompactionOp.mark 1 7, CompactionOp.mark 2 7, CompactionOp.unmark 1 7]) 1 = false ∧
    is_running (applyOps ⟨[], []⟩
      [CompactionOp.mark 1 7, CompactionOp.mark 2 7, CompactionOp.unmark 1 7]) 2 = true ∧
    disk_limit (applyOps ⟨[], []⟩
      [CompactionOp.mark 1 7, CompactionOp.mark 2 7, CompactionOp.unmark 1 7]) 7 2 = false := by
  refine ⟨by decide, ?_, ?_, ?_⟩
  · exact ((compaction_manager_spec _ (by decide)).1 1).trans (by decide)
  · exact ((compaction_manager_spec _ (by decide)).1 2).trans (by decide)
  · exact ((compaction_manager_spec _ (by decide)).2 7 2).trans (by decide)

end StarRocksPindex
